import Mathlib

/-!
Verification development for the `nihreporter_get_funding` repository.

The repository has two scripts:

* `get_funding.py` — queries the NIH RePORTER API per investigator, filters the
  returned grant records down to "active" ones with a hardcoded cutoff date,
  projects them to report rows, and accumulates the rows over the roster.
* `create_name_list.py` — splits one concatenated string of
  "LastName, FirstName" segments into pairs with a lookahead regex and
  removes duplicates while preserving first-occurrence order.

The definitions below are shallow embeddings of those scripts:

* Python `datetime.strptime(s, '%Y-%m-%d')` is embedded as `parseDate`
  (a four-digit year, one- or two-digit month and day, calendar-validated,
  exactly as CPython's `_strptime` regular expressions and the `datetime`
  constructor behave).
* Python dictionary access `d.get(k)` / `d.get(k, default)` is embedded via
  `JField` (a JSON string field that is absent, null, or a string) with
  `pyGet` / `pyGetD`.
* Python exceptions that escape the script's `try` blocks are embedded with
  `Except PyErr`; `AttributeError` (e.g. `None.split`, `None.extend`) and
  `ValueError` (e.g. `date.replace` producing an invalid date) are the two
  that can actually escape.
* The regex `([A-Za-z’\-]+),\s*([A-Za-z.\- ]+?)(?=[A-Z][a-z’\-]+,|$)` used
  with `re.findall` is embedded as an explicit character-level scanner
  (`findAllF`) that reproduces the backtracking engine's behaviour for this
  pattern: group 1 and the whitespace run are effectively greedy-maximal
  because `','` is outside their classes, group 2 is lazy, and the
  whitespace run backtracks one character at a time when the lazy group
  finds no admissible end.
-/

/-- A calendar date, embedding Python's `datetime.date`. -/
structure PyDate where
  year : Nat
  month : Nat
  day : Nat
deriving DecidableEq, Repr

/-- Gregorian leap-year test, as Python's `calendar`/`datetime` use. -/
def isLeap (y : Nat) : Bool :=
  y % 4 == 0 && (y % 100 != 0 || y % 400 == 0)

/-- Number of days in a month, used by `datetime` to validate a date. -/
def daysInMonth (y m : Nat) : Nat :=
  if m == 1 || m == 3 || m == 5 || m == 7 || m == 8 || m == 10 || m == 12 then 31
  else if m == 4 || m == 6 || m == 9 || m == 11 then 30
  else if isLeap y then 29 else 28

/-- Strict comparison of dates, as Python compares `date` values. -/
def dateLt (a b : PyDate) : Bool :=
  a.year < b.year ||
    (a.year == b.year &&
      (a.month < b.month || (a.month == b.month && a.day < b.day)))

/-- Non-strict comparison of dates. -/
def dateLe (a b : PyDate) : Bool :=
  dateLt a b || a == b

/-- Splits a character list at every occurrence of `sep`, embedding
Python's `str.split(sep)` for a one-character separator. -/
def splitCh (sep : Char) : List Char → List (List Char)
  | [] => [[]]
  | c :: rest =>
    if c = sep then [] :: splitCh sep rest
    else
      match splitCh sep rest with
      | [] => [[c]]
      | g :: gs => (c :: g) :: gs

/-- Decimal value of an all-digit character list (`none` on any
non-digit). -/
def decValAux (acc : Nat) : List Char → Option Nat
  | [] => some acc
  | c :: rest =>
    if '0' ≤ c && c ≤ '9' then decValAux (acc * 10 + (c.toNat - 48)) rest
    else none

/-- Decimal value of a non-empty all-digit character list. -/
def decVal (l : List Char) : Option Nat :=
  if l.isEmpty then none else decValAux 0 l

/-- Embeds `datetime.strptime(s, '%Y-%m-%d').date()` on the character
level: CPython requires exactly four digits for `%Y`, one or two digits
for `%m` (value 1–12) and `%d`, the whole string must be consumed, and the
resulting date must be a valid calendar date with year at least 1. -/
def parseDateC (l : List Char) : Option PyDate :=
  match splitCh '-' l with
  | [ys, ms, ds] =>
    match decVal ys, decVal ms, decVal ds with
    | some y, some m, some d =>
      if ys.length == 4 && 1 ≤ y &&
          ms.length ≤ 2 && 1 ≤ m && m ≤ 12 &&
          ds.length ≤ 2 && 1 ≤ d && d ≤ daysInMonth y m then
        some ⟨y, m, d⟩
      else none
    | _, _, _ => none
  | _ => none

/-- The strptime embedding on strings. -/
def parseDate (s : String) : Option PyDate :=
  parseDateC s.data

/-- Embeds Python's `date_str.split('T')[0]` on the character level. -/
def splitTC (l : List Char) : List Char :=
  (splitCh 'T' l).headD l

/-- Embeds Python's `date_str.split('T')[0]`. -/
def splitT (s : String) : String :=
  String.mk (splitTC s.data)

/-- A JSON string-valued record field: absent from the mapping, present
with a null value, or present with a string value. -/
inductive JField where
  | absent
  | null
  | str (s : String)
deriving DecidableEq, Repr

/-- A JSON numeric field (used for `fiscal_year`). -/
inductive NumField where
  | absent
  | null
  | num (n : Int)
deriving DecidableEq, Repr

/-- A Python value as seen by `format_currency`: `None`, an integer, or a
string (the "non-numeric" case). -/
inductive PyVal where
  | vnone
  | vint (n : Int)
  | vstr (s : String)
deriving DecidableEq, Repr

/-- Exceptions that can escape the script's `try` blocks. -/
inductive PyErr where
  | attributeError
  | valueError
deriving DecidableEq, Repr

/-- Embeds `grant.get(key)`: both an absent key and a null value give
Python `None`. -/
def pyGet (f : JField) : Option String :=
  match f with
  | .absent => none
  | .null => none
  | .str s => some s

/-- Embeds `grant.get(key, default)`: the default applies only when the key
is absent; a present null value still gives Python `None`. -/
def pyGetD (f : JField) (d : String) : Option String :=
  match f with
  | .absent => some d
  | .null => none
  | .str s => some s

/-- Python truthiness of an optional string: `None` and `""` are falsy. -/
def truthy (o : Option String) : Bool :=
  match o with
  | none => false
  | some s => !s.isEmpty

/-- The nested `organization` object of a RePORTER record (or absent, in
which case the script substitutes `{}`). -/
structure Organization where
  org_name : JField
deriving DecidableEq, Repr

/-- One raw grant record as returned in the API's `results` list, holding
exactly the fields `get_funding.py` reads. -/
structure RawGrant where
  project_num : JField
  contact_pi_name : JField
  project_title : JField
  award_amount : PyVal
  project_start_date : JField
  project_end_date : JField
  budget_start : JField
  budget_end : JField
  fiscal_year : NumField
  organization : Option Organization
deriving DecidableEq, Repr

/-- The hardcoded cutoff `date(2026, 1, 1)` from `display_funding_info`. -/
def cutoff_date : PyDate := ⟨2026, 1, 1⟩

/-- The default used for a missing `project_end_date`
(`grant.get("project_end_date", '2020-01-01T12:00:00Z')`). -/
def projectEndDefault : String := "2020-01-01T12:00:00Z"

/-- One iteration of the filtering loop of `display_funding_info`
(lines 153–171): decides whether the grant is appended to `active_grants`.
`ok true` means appended, `ok false` means skipped (including the two
warning branches that catch `ValueError` or a falsy end-date string), and
`error` means an exception escapes — which happens when `budget_end_str`
is `None`, since `None.split('T')` raises `AttributeError` and only
`ValueError` is caught. -/
def filterStep (today : PyDate) (g : RawGrant) : Except PyErr Bool :=
  let budget_end_str := pyGet g.budget_end
  let end_date_str := pyGetD g.project_end_date projectEndDefault
  if truthy end_date_str then
    match budget_end_str with
    | none => .error .attributeError
    | some bs =>
      match parseDate (splitT bs) with
      | none => .ok false
      | some budget_end_date =>
        match parseDate (splitT (end_date_str.getD "")) with
        | none => .ok false
        | some end_date =>
          .ok (dateLt today budget_end_date && dateLe cutoff_date end_date)
  else .ok false

/-- The whole filtering loop: the list of grants kept in `active_grants`,
or the first uncaught exception (which aborts the loop, so later records
are not examined). -/
def filterActive (today : PyDate) : List RawGrant → Except PyErr (List RawGrant)
  | [] => .ok []
  | g :: gs =>
    match filterStep today g with
    | .error e => .error e
    | .ok b =>
      match filterActive today gs with
      | .error e => .error e
      | .ok rest => .ok (if b then g :: rest else rest)

/-- The decimal digit character for `n` (used for `n < 10`). -/
def digitChar10 (n : Nat) : Char :=
  match n with
  | 0 => '0' | 1 => '1' | 2 => '2' | 3 => '3' | 4 => '4'
  | 5 => '5' | 6 => '6' | 7 => '7' | 8 => '8' | _ => '9'

/-- Numeric value of a decimal digit character. -/
def charVal (c : Char) : Nat :=
  match c with
  | '0' => 0 | '1' => 1 | '2' => 2 | '3' => 3 | '4' => 4
  | '5' => 5 | '6' => 6 | '7' => 7 | '8' => 8 | _ => 9

/-- Fuel-driven decimal digit expansion (most significant first). The fuel
keeps the recursion structural so that the kernel can evaluate it. -/
def natDigitsF : Nat → Nat → List Char
  | 0, _ => []
  | fuel + 1, n =>
    if n < 10 then [digitChar10 n]
    else natDigitsF fuel (n / 10) ++ [digitChar10 (n % 10)]

/-- Decimal digits of `n`, most significant first (never empty). -/
def natDigits (n : Nat) : List Char :=
  natDigitsF (n + 1) n

/-- Splits a list into chunks of three from the left (the last chunk may be
shorter); every chunk of a non-empty list is non-empty. -/
def chunk3 {α : Type} : List α → List (List α)
  | [] => []
  | [a] => [[a]]
  | [a, b] => [[a, b]]
  | a :: b :: c :: rest => [a, b, c] :: chunk3 rest

/-- Joins character groups with `','` between them. -/
def joinComma : List (List Char) → List Char
  | [] => []
  | [g] => g
  | g :: h :: t => g ++ ',' :: joinComma (h :: t)

/-- Splits a character list at each `','` (inverse of `joinComma` on
comma-free non-empty groups). -/
def splitComma (l : List Char) : List (List Char) :=
  splitCh ',' l

/-- The thousands groups of a digit string: chunks of three taken from the
right, most significant group (of size 1–3) first. -/
def thousandsGroups (l : List Char) : List (List Char) :=
  ((chunk3 l.reverse).map List.reverse).reverse

/-- Inserts `','` thousands separators into a digit string, as Python's
`format(n, ',')` does. -/
def commaSep (l : List Char) : List Char :=
  joinComma (thousandsGroups l)

/-- Embeds `format_currency` (`get_funding.py` lines 40–50): `None` gives
`"N/A"`, an integer is rendered as `f"${amount:,.0f}"` (a dollar sign, an
optional minus sign, and the decimal digits with thousands separators and
no decimal places), and a string raises `ValueError` inside the f-string,
which the function catches and turns into `"N/A"`. -/
def format_currency (amount : PyVal) : String :=
  match amount with
  | .vnone => "N/A"
  | .vstr _ => "N/A"
  | .vint n =>
    "$" ++ (if n < 0 then "-" else "") ++ String.mk (commaSep (natDigits n.natAbs))

/-- Two-digit zero-padded decimal rendering (for `%m` and `%d`). -/
def pad2 (n : Nat) : List Char :=
  if n < 10 then '0' :: natDigits n else natDigits n

/-- Four-digit zero-padded decimal rendering (for `%Y`). -/
def pad4 (n : Nat) : List Char :=
  if n < 10 then '0' :: '0' :: '0' :: natDigits n
  else if n < 100 then '0' :: '0' :: natDigits n
  else if n < 1000 then '0' :: natDigits n
  else natDigits n

/-- Embeds `dt_obj.strftime('%m/%d/%Y')`. -/
def strftimeMDY (d : PyDate) : String :=
  String.mk (pad2 d.month ++ '/' :: pad2 d.day ++ '/' :: pad4 d.year)

/-- Embeds `format_date` (`get_funding.py` lines 25–38): falsy input gives
`"N/A"`, a parsable date is re-rendered as `MM/DD/YYYY`, and an unparsable
string is returned unchanged. -/
def format_date (date_str : Option String) : String :=
  match date_str with
  | none => "N/A"
  | some s =>
    if s.isEmpty then "N/A"
    else
      match parseDate (splitT s) with
      | some d => strftimeMDY d
      | none => s

/-- One normalized report row, the dictionary built in
`display_funding_info` lines 204–215.  String-valued `get` results are
kept as `Option String` because a present null field stores Python `None`
in the dictionary. -/
structure ReportRecord where
  grant_num : Option String
  pi_name : Option String
  title : Option String
  org_name : Option String
  fy : PyVal
  award_amount : String
  start_date : String
  end_date : String
  budget_start : String
  budget_end : String
deriving DecidableEq, Repr

/-- Embeds the per-grant projection of `display_funding_info`
(lines 180–215): field extraction with `"N/A"` defaults, date formatting
and currency formatting. -/
def projectGrant (g : RawGrant) : ReportRecord :=
  { grant_num := pyGetD g.project_num "N/A"
    pi_name := pyGetD g.contact_pi_name "N/A"
    title := pyGetD g.project_title "N/A"
    org_name :=
      match g.organization with
      | none => some "N/A"
      | some org => pyGetD org.org_name "N/A"
    fy :=
      match g.fiscal_year with
      | .absent => .vstr "N/A"
      | .null => .vnone
      | .num n => .vint n
    award_amount := format_currency g.award_amount
    start_date := format_date (pyGet g.project_start_date)
    end_date := format_date (pyGet g.project_end_date)
    budget_start := format_date (pyGet g.budget_start)
    budget_end := format_date (pyGet g.budget_end) }

/-- Embeds `today.replace(year=today.year - 1)` (line 143): the result must
be a valid calendar date with year at least 1, otherwise `ValueError` is
raised — which happens exactly on February 29, since the preceding year is
never a leap year. -/
def replaceYearPred (t : PyDate) : Option PyDate :=
  if 1 ≤ t.year - 1 && t.day ≤ daysInMonth (t.year - 1) t.month then
    some ⟨t.year - 1, t.month, t.day⟩
  else none

/-- Embeds `display_funding_info` (`get_funding.py` lines 132–231) up to
its return value: `ok none` models the bare `return` (Python `None`) taken
for empty input or when no grant survives the filter; `ok (some rows)`
models `return grant_list`; `error` models an exception escaping
(`ValueError` from the unused one-year-ago computation on February 29, or
`AttributeError` from the filter loop). -/
def display_funding_info (today : PyDate) (funding_data : List RawGrant) :
    Except PyErr (Option (List ReportRecord)) :=
  if funding_data.isEmpty then .ok none
  else
    match replaceYearPred today with
    | none => .error .valueError
    | some _ =>
      match filterActive today funding_data with
      | .error e => .error e
      | .ok active_grants =>
        if active_grants.isEmpty then .ok none
        else .ok (some (active_grants.map projectGrant))

/-- One iteration of the `__main__` roster loop (lines 270–283) acting on
the accumulator `grant_lists`.  The outer `Option` models whether the
variable exists in `locals()` yet; the inner `Option` models its value
(`None` when the first name produced no rows).  `grant_lists.extend`
on `None` raises `AttributeError`. -/
def loopStep (today : PyDate) (st : Option (Option (List ReportRecord)))
    (funding_data : List RawGrant) :
    Except PyErr (Option (Option (List ReportRecord))) :=
  match display_funding_info today funding_data with
  | .error e => .error e
  | .ok grant_list =>
    match st with
    | none => .ok (some grant_list)
    | some acc =>
      match grant_list with
      | none => .ok (some acc)
      | some l =>
        if l.isEmpty then .ok (some acc)
        else
          match acc with
          | none => .error .attributeError
          | some accl => .ok (some (some (accl ++ l)))

/-- The `__main__` roster loop over the per-name query results (the list
returned by `get_nih_funding` for each roster entry; transport, decoding
and no-match failures all yield `[]` there, since every exception in
`get_nih_funding` is caught). -/
def mainLoop (today : PyDate) :
    List (List RawGrant) → Option (Option (List ReportRecord)) →
    Except PyErr (Option (Option (List ReportRecord)))
  | [], st => .ok st
  | fd :: rest, st =>
    match loopStep today st fd with
    | .error e => .error e
    | .ok st' => mainLoop today rest st'

/-- Characters of the regex class `[A-Za-z’\-]` (group 1, last names). -/
def isName1 (c : Char) : Bool :=
  ('A' ≤ c && c ≤ 'Z') || ('a' ≤ c && c ≤ 'z') || c == '’' || c == '-'

/-- Characters of the regex class `[A-Za-z.\- ]` (group 2, first names). -/
def isName2 (c : Char) : Bool :=
  ('A' ≤ c && c ≤ 'Z') || ('a' ≤ c && c ≤ 'z') || c == '.' || c == '-' || c == ' '

/-- Characters of the regex class `[a-z’\-]` (inside the lookahead). -/
def isLowerName (c : Char) : Bool :=
  ('a' ≤ c && c ≤ 'z') || c == '’' || c == '-'

/-- ASCII uppercase, the regex class `[A-Z]`. -/
def isUpperA (c : Char) : Bool :=
  'A' ≤ c && c ≤ 'Z'

/-- Whitespace characters matched by `\s` on the inputs considered here. -/
def isWsChar (c : Char) : Bool :=
  c == ' ' || c == '\t' || c == '\n' || c == '\r' || c == '\x0b' || c == '\x0c'

/-- The lookahead `(?=[A-Z][a-z’\-]+,|$)` evaluated on the remaining
suffix: end of input, or an uppercase letter followed by a non-empty run
of `[a-z’\-]` whose maximal extent is followed directly by `','` (the run
cannot usefully backtrack because `','` is outside its class). -/
def lookNext (s : List Char) : Bool :=
  match s with
  | [] => true
  | c :: rest =>
    isUpperA c && !(rest.takeWhile isLowerName).isEmpty &&
      ((rest.dropWhile isLowerName).head? == some ',')

/-- The lazy group 2 `([A-Za-z.\- ]+?)` search: extend the capture one
`[A-Za-z.\- ]` character at a time (shortest first) and stop at the first
position where the lookahead holds; `none` when no admissible end exists.
Returns the capture together with the unconsumed suffix. -/
def searchEnd (acc : List Char) : List Char → Option (List Char × List Char)
  | [] => none
  | c :: rest =>
    if isName2 c then
      if lookNext rest then some (acc ++ [c], rest)
      else searchEnd (acc ++ [c]) rest
    else none

/-- Backtracking of the greedy `\s*`: first try group 2 after the whole
whitespace run, then give the run's characters back one at a time (from
its right end) for group 2 to consume. -/
def tryWs : List Char → List Char → Option (List Char × List Char)
  | [], s2 => searchEnd [] s2
  | c :: wsRev, s2 =>
    match searchEnd [] s2 with
    | some r => some r
    | none => tryWs wsRev (c :: s2)

/-- One anchored match attempt of the pattern
`([A-Za-z’\-]+),\s*([A-Za-z.\- ]+?)(?=[A-Z][a-z’\-]+,|$)` at the head of
`s`: group 1 is the maximal `[A-Za-z’\-]` run (backtracking it cannot
help, as `','` is outside the class), then a literal `','`, then the
whitespace run with backtracking, then the lazy group 2.  Returns both
captures and the suffix at the match end (the lookahead consumes
nothing). -/
def run1 (s : List Char) : Option ((List Char × List Char) × List Char) :=
  let g1 := s.takeWhile isName1
  let r1 := s.dropWhile isName1
  if g1.isEmpty then none
  else
    match r1 with
    | ',' :: r2 =>
      let wsp := r2.takeWhile isWsChar
      let r3 := r2.dropWhile isWsChar
      match tryWs wsp.reverse r3 with
      | some (g2, rem) => some ((g1, g2), rem)
      | none => none
    | _ => none

/-- Embeds `re.findall`'s scan: try a match at each position; on success
record the captures and continue at the match end, otherwise advance one
character.  Every match consumes at least one character, so fuel equal to
the input length suffices. -/
def findAllF : Nat → List Char → List (List Char × List Char)
  | 0, _ => []
  | fuel + 1, s =>
    match run1 s with
    | some (g, rem) => g :: findAllF fuel rem
    | none =>
      match s with
      | [] => []
      | _ :: t => findAllF fuel t

/-- All matches of the name pattern in `s` (`re.findall(pattern, s)`). -/
def findAllMatches (s : List Char) : List (List Char × List Char) :=
  findAllF s.length s

/-- Embeds Python's `str.strip()` on the character list level. -/
def stripWs (l : List Char) : List Char :=
  ((l.dropWhile isWsChar).reverse.dropWhile isWsChar).reverse

/-- The tokenizer of `create_name_list.py` (lines 15–29): regex matches
with both captured names stripped, in order of occurrence. -/
def tokenizeNames (s : String) : List (String × String) :=
  (findAllMatches s.data).map
    (fun p => (String.mk (stripWs p.1), String.mk (stripWs p.2)))

/-- The duplicate-removal loop of `create_name_list.py` (lines 32–38),
generalized over the already-seen set: append a pair when it has not been
seen, and record it as seen. -/
def dedupSeen (seen : List (String × String)) :
    List (String × String) → List (String × String)
  | [] => []
  | x :: xs =>
    if x ∈ seen then dedupSeen seen xs
    else x :: dedupSeen (x :: seen) xs

/-- The list `unique_name_list` as built from a token list with an initially empty
`seen_names` set. -/
def unique_name_list (l : List (String × String)) : List (String × String) :=
  dedupSeen [] l

/-- Re-joins roster pairs into one blob with `", "` after each last name
and no separator between entries, on the character level. -/
def joinPairsC : List (List Char × List Char) → List Char
  | [] => []
  | (ln, fn) :: rest => ln ++ ',' :: ' ' :: (fn ++ joinPairsC rest)

/-- Re-joins a roster of string pairs into one blob. -/
def joinPairs (l : List (String × String)) : String :=
  String.mk (joinPairsC (l.map (fun p => (p.1.data, p.2.data))))

/-- A string that parses as a date is non-empty. -/
theorem parseDate_splitT_ne_empty {s : String} {d : PyDate}
    (h : parseDate (splitT s) = some d) : s ≠ "" := by
  intro he
  subst he
  exact Option.noConfusion ((show parseDate (splitT "") = none from rfl) ▸ h)

/-- Unfolds `filterStep` in the all-fields-parsable case. -/
theorem filterStep_eq_of_parsable (today : PyDate) (g : RawGrant)
    (bs es : String) (bd ed : PyDate)
    (hb : g.budget_end = .str bs) (hbp : parseDate (splitT bs) = some bd)
    (he : g.project_end_date = .str es) (hep : parseDate (splitT es) = some ed) :
    filterStep today g =
      .ok (dateLt today bd && dateLe cutoff_date ed) := by
  have hne : es ≠ "" := parseDate_splitT_ne_empty hep
  have hemp : es.isEmpty = false := by
    cases hie : es.isEmpty
    · rfl
    · exact absurd ((String.isEmpty_iff es).mp hie) hne
  simp only [filterStep, hb, he, pyGet, pyGetD, truthy, hemp, Bool.not_false,
    if_pos rfl, hbp, Option.getD_some, hep, if_true]

/-- A reusable reference date (June 1 2025, not February 29). -/
def today0 : PyDate := ⟨2025, 6, 1⟩

/-- A concrete record that is active at `today0`: its budget period ends
December 31 2025 and its project ends June 30 2026. -/
def gActive : RawGrant :=
  { project_num := .str "5R01MH000000-02"
    contact_pi_name := .str "DOE, JANE"
    project_title := .str "Neuroimaging study"
    award_amount := .vint 250000
    project_start_date := .str "2023-01-01T12:00:00Z"
    project_end_date := .str "2026-06-30T12:00:00Z"
    budget_start := .str "2025-01-01T12:00:00Z"
    budget_end := .str "2025-12-31T12:00:00Z"
    fiscal_year := .num 2025
    organization := some ⟨.str "UNIVERSITY OF MINNESOTA"⟩ }

/-- The spec's boundary record: budget end December 31 2025, project end
exactly at the cutoff January 1 2026. -/
def gBoundary : RawGrant :=
  { gActive with
    project_end_date := .str "2026-01-01T00:00:00Z"
    budget_end := .str "2025-12-31T00:00:00Z" }

/-- A record whose project end misses the cutoff by one day. -/
def gInactive : RawGrant :=
  { gActive with project_end_date := .str "2025-12-31T12:00:00Z" }

/-- A record with no budget-end field at all. -/
def gMissingBudget : RawGrant :=
  { gActive with budget_end := .absent }

/-- A record whose budget-end field does not parse as a date. -/
def gBadBudget : RawGrant :=
  { gActive with budget_end := .str "12/31/2025" }

/-- A record whose project-end field does not parse as a date. -/
def gBadEnd : RawGrant :=
  { gActive with project_end_date := .str "June 30, 2026" }

/-- A record with no project-end field at all. -/
def gNoProjEnd : RawGrant :=
  { gActive with project_end_date := .absent }

/-- C1: for every record whose budget-end and project-end fields are
present and parse as dates, and for every reference date, the filter
classifies the record as active exactly when the budget-end date (date
portion only) is strictly after today and the project-end date (date
portion only) is on or after the hardcoded cutoff 2026-01-01. -/
theorem C1_active_iff (today : PyDate) (g : RawGrant)
    (bs es : String) (bd ed : PyDate)
    (hb : g.budget_end = .str bs) (hbp : parseDate (splitT bs) = some bd)
    (he : g.project_end_date = .str es) (hep : parseDate (splitT es) = some ed) :
    filterStep today g = .ok true ↔
      (dateLt today bd = true ∧ dateLe cutoff_date ed = true) := by
  rw [filterStep_eq_of_parsable today g bs es bd ed hb hbp he hep]
  constructor
  · intro h
    have hand : (dateLt today bd && dateLe cutoff_date ed) = true :=
      Except.ok.inj h
    exact ⟨(Bool.and_eq_true _ _).mp hand |>.1, (Bool.and_eq_true _ _).mp hand |>.2⟩
  · rintro ⟨h1, h2⟩
    rw [h1, h2]
    rfl

/-- C1 witness: the spec's boundary example, evaluated concretely. -/
theorem C1_witness : filterStep today0 gBoundary = .ok true :=
  (C1_active_iff today0 gBoundary "2025-12-31T00:00:00Z" "2026-01-01T00:00:00Z"
      ⟨2025, 12, 31⟩ ⟨2026, 1, 1⟩ rfl (by decide) rfl (by decide)).mpr
    (by decide)

/-- C4: a record whose project-end field is entirely absent gets the
sentinel `2020-01-01T12:00:00Z` substituted; the sentinel parses to
2020-01-01, which is before the cutoff 2026-01-01, so (when the budget-end
field is present and parsable) the record fails the cutoff test and is
excluded without error. -/
theorem C4_sentinel_excludes (today : PyDate) (g : RawGrant)
    (bs : String) (bd : PyDate)
    (habs : g.project_end_date = .absent)
    (hb : g.budget_end = .str bs) (hbp : parseDate (splitT bs) = some bd) :
    pyGetD g.project_end_date projectEndDefault = some projectEndDefault ∧
    parseDate (splitT projectEndDefault) = some ⟨2020, 1, 1⟩ ∧
    dateLe cutoff_date ⟨2020, 1, 1⟩ = false ∧
    filterStep today g = .ok false := by
  refine ⟨by rw [habs]; rfl, by decide, by decide, ?_⟩
  have hstep : filterStep today g =
      .ok (dateLt today bd && dateLe cutoff_date ⟨2020, 1, 1⟩) := by
    simp only [filterStep, hb, habs, pyGet, pyGetD, truthy,
      show projectEndDefault.isEmpty = false from rfl, Bool.not_false,
      if_true, hbp, Option.getD_some,
      show parseDate (splitT projectEndDefault) = some ⟨2020, 1, 1⟩ from by decide]
  rw [hstep, show dateLe cutoff_date ⟨2020, 1, 1⟩ = false from by decide,
    Bool.and_false]

/-- C4 witness: the concrete record with no project-end field is excluded
at `today0`. -/
theorem C4_witness :
    filterStep today0 gNoProjEnd = .ok false :=
  (C4_sentinel_excludes today0 gNoProjEnd "2025-12-31T12:00:00Z"
      ⟨2025, 12, 31⟩ rfl rfl (by decide)).2.2.2

/-- C3 counterexample: a record whose budget-end field is missing is not
"skipped with processing continuing" — `budget_end_str.split('T')` is
`None.split('T')`, the resulting `AttributeError` is not caught by the
`except ValueError` handler, and the filtering loop aborts before the
remaining record is examined. -/
theorem C3_counterexample :
    filterActive today0 [gMissingBudget, gActive] = .error .attributeError ∧
    display_funding_info today0 [gMissingBudget, gActive] =
      .error .attributeError := by
  constructor <;> rfl

/-- C3 amended: (1) a record whose budget-end field is present but does
not parse is skipped without error; (2) a record whose budget-end field is
present and whose project-end value does not parse is skipped without
error; (3) but a record whose budget-end field is missing (or null), while
its effective project-end string is truthy, raises an uncaught
`AttributeError` that aborts the filtering loop, so the remaining records
are not processed. -/
theorem C3_amended :
    (∀ (today : PyDate) (g : RawGrant) (bs : String),
      g.budget_end = JField.str bs → parseDate (splitT bs) = none →
      filterStep today g = .ok false) ∧
    (∀ (today : PyDate) (g : RawGrant) (bs es : String),
      g.budget_end = JField.str bs →
      pyGetD g.project_end_date projectEndDefault = some es →
      parseDate (splitT es) = none →
      filterStep today g = .ok false) ∧
    (∀ (today : PyDate) (g : RawGrant) (gs : List RawGrant),
      pyGet g.budget_end = none →
      truthy (pyGetD g.project_end_date projectEndDefault) = true →
      filterActive today (g :: gs) = .error .attributeError) := by
  refine ⟨?_, ?_, ?_⟩
  · intro today g bs hb hbad
    simp only [filterStep, hb, pyGet, hbad]
    cases htr : truthy (pyGetD g.project_end_date projectEndDefault) <;> simp
  · intro today g bs es hb he hbad
    simp only [filterStep, hb, pyGet, he]
    cases htr : truthy (some es) with
    | false => simp [htr]
    | true =>
      simp only [htr, if_true]
      cases hbp : parseDate (splitT bs) with
      | none => rfl
      | some bd => simp only [hbp, Option.getD_some, hbad]
  · intro today g gs hb htr
    have hstep : filterStep today g = .error .attributeError := by
      simp only [filterStep, hb, htr, if_true]
    simp only [filterActive, hstep]

/-- C3 witness: the three amended cases at concrete inputs — an unparsable
budget end, an unparsable project end, and a missing budget end that
aborts the loop. -/
theorem C3_witness :
    filterStep today0 gBadBudget = .ok false ∧
    filterStep today0 gBadEnd = .ok false ∧
    filterActive today0 [gMissingBudget, gBoundary] = .error .attributeError :=
  ⟨C3_amended.1 today0 gBadBudget "12/31/2025" rfl (by decide),
   C3_amended.2.1 today0 gBadEnd "2025-12-31T12:00:00Z" "June 30, 2026" rfl rfl
     (by decide),
   C3_amended.2.2 today0 gMissingBudget [gBoundary] rfl rfl⟩

/-- C2: the failure of a single name is in fact fatal to the whole batch
when it is the first roster entry.  `get_nih_funding` turns every query
failure into `[]`; `display_funding_info []` returns Python `None`; the
first loop iteration stores that `None` in `grant_lists`; and the next
name that produces rows calls `None.extend`, raising an uncaught
`AttributeError` that aborts the batch before any later roster entry is
processed. -/
theorem C2_first_failure_fatal :
    mainLoop today0 [[], [gActive]] none = .error .attributeError := by
  rfl

/-- C10 counterexample: with a non-empty funding list and the reference
date February 29 2024, `display_funding_info` neither returns `None` nor a
list — the unused `one_year_ago = today.replace(year=today.year - 1)`
computation (line 143) raises an uncaught `ValueError`, because 2023 has
no February 29. -/
theorem C10_counterexample :
    display_funding_info ⟨2024, 2, 29⟩ [gActive] = .error .valueError := by
  rfl

/-- C10 amended: the empty-input early return happens before the
one-year-ago computation, so it yields `None` for every reference date;
and whenever the one-year-ago computation succeeds (every date except
February 29), `display_funding_info` returns `None` exactly when the input
is empty or no record survives the filter, and any returned list is the
non-empty projection of the surviving records. -/
theorem C10_amended (today : PyDate) (fd : List RawGrant)
    (h : replaceYearPred today ≠ none) :
    (∀ t : PyDate, display_funding_info t [] = .ok none) ∧
    (display_funding_info today fd = .ok none ↔
      fd = [] ∨ filterActive today fd = .ok []) ∧
    (∀ l, display_funding_info today fd = .ok (some l) →
      l ≠ [] ∧
        ∃ acts, filterActive today fd = .ok acts ∧ acts ≠ [] ∧
          l = acts.map projectGrant) := by
  obtain ⟨prev, hprev⟩ : ∃ p, replaceYearPred today = some p := by
    cases hr : replaceYearPred today with
    | none => exact absurd hr h
    | some p => exact ⟨p, rfl⟩
  refine ⟨fun t => rfl, ?_, ?_⟩
  · by_cases hfd : fd = []
    · subst hfd
      simp [display_funding_info]
    · have hfe : fd.isEmpty = false := by
        cases fd with
        | nil => exact absurd rfl hfd
        | cons a t => rfl
      simp only [display_funding_info, hfe, Bool.false_eq_true, if_false,
        hprev]
      cases hfa : filterActive today fd with
      | error e => simp [hfd]
      | ok acts =>
        cases acts with
        | nil => simp [hfd]
        | cons a t =>
          simp only [List.isEmpty_cons, Bool.false_eq_true, if_false]
          constructor
          · intro hco
            exact absurd hco (by simp)
          · rintro (hl | hl)
            · exact absurd hl hfd
            · exact absurd (Except.ok.inj hl) (by simp)
  · intro l hl
    by_cases hfd : fd = []
    · subst hfd
      exact absurd (Option.noConfusion (Except.ok.inj hl))
        (fun hf => hf)
    · have hfe : fd.isEmpty = false := by
        cases fd with
        | nil => exact absurd rfl hfd
        | cons a t => rfl
      simp only [display_funding_info, hfe, Bool.false_eq_true, if_false,
        hprev] at hl
      cases hfa : filterActive today fd with
      | error e => rw [hfa] at hl; exact Except.noConfusion hl
      | ok acts =>
        rw [hfa] at hl
        cases acts with
        | nil => exact Option.noConfusion (Except.ok.inj hl)
        | cons a t =>
          simp only [List.isEmpty_cons, Bool.false_eq_true, if_false] at hl
          have : l = (a :: t).map projectGrant := (Option.some.inj (Except.ok.inj hl)).symm
          exact ⟨by simp [this], a :: t, rfl, by simp, this⟩

/-- C10 witness: at `today0`, the empty input and an input whose only
record fails the cutoff both give `None`, and an input with a surviving
record gives the non-empty projected list. -/
theorem C10_witness :
    display_funding_info today0 [] = .ok none ∧
    display_funding_info today0 [gInactive] = .ok none ∧
    ∀ l, display_funding_info today0 [gActive] = .ok (some l) → l ≠ [] := by
  refine ⟨(C10_amended today0 [] (by decide)).1 today0,
    (C10_amended today0 [gInactive] (by decide)).2.1.mpr (Or.inr rfl),
    fun l hl => ((C10_amended today0 [gActive] (by decide)).2.2 l hl).1⟩

/-- The rows a single roster entry contributes to the report: the returned
list when `display_funding_info` returns one, nothing otherwise. -/
def nameContribution (today : PyDate) (fd : List RawGrant) : List ReportRecord :=
  match display_funding_info today fd with
  | .ok (some l) => l
  | _ => []

/-- Once the accumulator holds a list, each later iteration appends that
entry's contribution (possibly empty) at the end. -/
theorem loopStep_on_list (today : PyDate) (fd : List RawGrant)
    (accl : List ReportRecord) (r : Option (List ReportRecord))
    (hr : display_funding_info today fd = .ok r) :
    loopStep today (some (some accl)) fd =
      .ok (some (some (accl ++ nameContribution today fd))) := by
  cases r with
  | none =>
    simp [loopStep, hr, nameContribution]
  | some l =>
    cases hl : l.isEmpty with
    | true =>
      have : l = [] := by
        cases l with
        | nil => rfl
        | cons a t => exact absurd hl (by simp)
      subst this
      simp [loopStep, hr, nameContribution]
    | false =>
      simp [loopStep, hr, hl, nameContribution]

/-- Once the accumulator holds a list, the rest of the roster loop appends
each entry's contribution in roster order, provided no entry raises. -/
theorem mainLoop_concat (today : PyDate) :
    ∀ (rest : List (List RawGrant)) (acc : List ReportRecord),
      (∀ fd ∈ rest, ∃ r, display_funding_info today fd = Except.ok r) →
      mainLoop today rest (some (some acc)) =
        .ok (some (some (acc ++ (rest.map (nameContribution today)).flatten)))
  | [], acc, _ => by simp [mainLoop]
  | fd :: rest, acc, h => by
    obtain ⟨r, hr⟩ := h fd (List.mem_cons_self fd rest)
    have hrest : ∀ f ∈ rest, ∃ r, display_funding_info today f = Except.ok r :=
      fun f hf => h f (List.mem_cons_of_mem fd hf)
    have hstep := loopStep_on_list today fd acc r hr
    simp only [mainLoop, hstep,
      mainLoop_concat today rest (acc ++ nameContribution today fd) hrest,
      List.map_cons, List.flatten_cons, List.append_assoc]

/-- C8 counterexample: for the roster `[A, B]` where A's query yields no
active record and B's yields one, the batch does not produce B's records
appended to an empty report — it aborts with `AttributeError`, because the
first iteration stored Python `None` in `grant_lists` and the second calls
`None.extend`.  B's entry alone would have contributed one row. -/
theorem C8_counterexample :
    mainLoop today0 [[gInactive], [gActive]] none = .error .attributeError ∧
    display_funding_info today0 [gActive] = .ok (some [projectGrant gActive]) := by
  constructor <;> rfl

/-- C8 amended: provided the first roster entry returns a row list (rather
than Python `None`) and no later entry raises, the report is exactly the
concatenation, in roster order, of each entry's projected active records,
each appended at the end as its query is processed and never removed or
reordered. -/
theorem C8_amended (today : PyDate) (fd0 : List RawGrant)
    (rest : List (List RawGrant)) (l0 : List ReportRecord)
    (h0 : display_funding_info today fd0 = .ok (some l0))
    (h : ∀ fd ∈ rest, ∃ r, display_funding_info today fd = Except.ok r) :
    mainLoop today (fd0 :: rest) none =
      .ok (some (some (l0 ++ (rest.map (nameContribution today)).flatten))) := by
  have hstep : loopStep today none fd0 = .ok (some (some l0)) := by
    simp [loopStep, h0]
  simp only [mainLoop, hstep, mainLoop_concat today rest l0 h]

/-- A second concrete active record, distinct from `gActive`. -/
def gActive2 : RawGrant :=
  { gActive with
    project_num := .str "5R01DA111111-03"
    award_amount := .vint 480000
    budget_end := .str "2026-03-31T12:00:00Z" }

/-- C8 witness: the spec's example — roster `[A, B]` where A yields two
active records and B yields none ends with exactly A's two projected rows
in their query order. -/
theorem C8_witness :
    mainLoop today0 [[gActive, gActive2], []] none =
      .ok (some (some [projectGrant gActive, projectGrant gActive2])) := by
  have h := C8_amended today0 [gActive, gActive2] [[]]
    [projectGrant gActive, projectGrant gActive2] (by rfl)
    (by
      intro fd hfd
      have : fd = [] := by simpa using hfd
      subst this
      exact ⟨none, rfl⟩)
  simpa [nameContribution] using h

/-- Reads a decimal digit string back to the number it denotes. -/
def readNatC (l : List Char) : Nat :=
  l.foldl (fun a c => a * 10 + charVal c) 0

/-- Checks the thousands-grouping shape: a leading group of one to three
characters followed by groups of exactly three. -/
def sizesOk (parts : List (List Char)) : Bool :=
  match parts with
  | [] => false
  | g :: gs =>
    (!g.isEmpty) && (decide (g.length ≤ 3)) && gs.all (fun h => h.length == 3)

/-- The function `natDigitsF` does not depend on the fuel once it covers `n`. -/
theorem natDigitsF_fuel (n : Nat) :
    ∀ f1 f2 : Nat, n < f1 → n < f2 → natDigitsF f1 n = natDigitsF f2 n := by
  induction n using Nat.strong_induction_on with
  | _ n ih =>
    intro f1 f2 h1 h2
    obtain ⟨g1, rfl⟩ : ∃ g, f1 = g + 1 := ⟨f1 - 1, by omega⟩
    obtain ⟨g2, rfl⟩ : ∃ g, f2 = g + 1 := ⟨f2 - 1, by omega⟩
    simp only [natDigitsF]
    by_cases hn : n < 10
    · simp [hn]
    · have hd : n / 10 < n := Nat.div_lt_self (by omega) (by omega)
      simp only [if_neg hn]
      rw [ih (n / 10) hd g1 g2 (by omega) (by omega)]

/-- The defining recurrence of `natDigits`. -/
theorem natDigits_eq (n : Nat) :
    natDigits n =
      if n < 10 then [digitChar10 n]
      else natDigits (n / 10) ++ [digitChar10 (n % 10)] := by
  show natDigitsF (n + 1) n = _
  simp only [natDigitsF]
  by_cases hn : n < 10
  · simp [hn]
  · have hd : n / 10 < n := Nat.div_lt_self (by omega) (by omega)
    simp only [if_neg hn]
    rw [natDigitsF_fuel (n / 10) n (n / 10 + 1) (by omega) (by omega)]
    rfl

/-- Digit characters are decimal digits. -/
theorem digitChar10_isDigit (m : Nat) :
    ('0' ≤ digitChar10 m && digitChar10 m ≤ '9') = true := by
  rcases m with _|_|_|_|_|_|_|_|_|m <;> rfl

/-- The digit value `charVal` inverts `digitChar10` below ten. -/
theorem charVal_digitChar10 (m : Nat) (h : m < 10) :
    charVal (digitChar10 m) = m := by
  rcases m with _|_|_|_|_|_|_|_|_|m
  · rfl
  · rfl
  · rfl
  · rfl
  · rfl
  · rfl
  · rfl
  · rfl
  · rfl
  · rcases m with _|m
    · rfl
    · omega

/-- The digit expansion is never empty. -/
theorem natDigits_ne_nil (n : Nat) : natDigits n ≠ [] := by
  rw [natDigits_eq n]
  by_cases hn : n < 10
  · simp [hn]
  · simp [hn]

/-- Every character of the digit expansion is a decimal digit. -/
theorem natDigits_all_digit (n : Nat) :
    ∀ c ∈ natDigits n, ('0' ≤ c && c ≤ '9') = true := by
  induction n using Nat.strong_induction_on with
  | _ n ih =>
    rw [natDigits_eq n]
    by_cases hn : n < 10
    · simp only [if_pos hn, List.mem_singleton]
      rintro c rfl
      exact digitChar10_isDigit n
    · simp only [if_neg hn, List.mem_append, List.mem_singleton]
      rintro c (hc | rfl)
      · exact ih (n / 10) (Nat.div_lt_self (by omega) (by omega)) c hc
      · exact digitChar10_isDigit (n % 10)

/-- Reading the digit expansion back gives the number: the rendered digits
really denote `n`. -/
theorem readNatC_natDigits (n : Nat) : readNatC (natDigits n) = n := by
  induction n using Nat.strong_induction_on with
  | _ n ih =>
    rw [natDigits_eq n]
    by_cases hn : n < 10
    · simp only [if_pos hn, readNatC, List.foldl_cons, List.foldl_nil]
      rw [charVal_digitChar10 n hn]
      omega
    · simp only [if_neg hn, readNatC, List.foldl_append, List.foldl_cons,
        List.foldl_nil]
      have hrec := ih (n / 10) (Nat.div_lt_self (by omega) (by omega))
      simp only [readNatC] at hrec
      rw [hrec, charVal_digitChar10 (n % 10) (by omega)]
      omega

/-- A decimal digit is not a comma. -/
theorem digit_ne_comma {c : Char} (h : ('0' ≤ c && c ≤ '9') = true) :
    c ≠ ',' := by
  intro heq
  subst heq
  exact absurd h (by decide)

/-- Flattening the three-chunks recovers the list. -/
theorem chunk3_flatten {α : Type} : ∀ l : List α, (chunk3 l).flatten = l
  | [] => rfl
  | [_] => rfl
  | [_, _] => rfl
  | a :: b :: c :: rest => by
    simp only [chunk3, List.flatten_cons, chunk3_flatten rest]
    rfl

/-- Three-chunks of a non-empty list are non-empty. -/
theorem chunk3_ne_nil {α : Type} : ∀ l : List α, l ≠ [] → chunk3 l ≠ []
  | [], h => absurd rfl h
  | [_], _ => by simp [chunk3]
  | [_, _], _ => by simp [chunk3]
  | _ :: _ :: _ :: _, _ => by simp [chunk3]

/-- Every three-chunk has between one and three elements. -/
theorem chunk3_sizes {α : Type} :
    ∀ l : List α, ∀ g ∈ chunk3 l, 1 ≤ g.length ∧ g.length ≤ 3
  | [], g, hg => absurd hg (by simp [chunk3])
  | [a], g, hg => by
    simp only [chunk3, List.mem_singleton] at hg
    subst hg; simp
  | [a, b], g, hg => by
    simp only [chunk3, List.mem_singleton] at hg
    subst hg; simp
  | a :: b :: c :: rest, g, hg => by
    simp only [chunk3, List.mem_cons] at hg
    rcases hg with rfl | hg
    · simp
    · exact chunk3_sizes rest g hg

/-- Every three-chunk except possibly the last has exactly three
elements. -/
theorem chunk3_dropLast_sizes {α : Type} :
    ∀ l : List α, ∀ g ∈ (chunk3 l).dropLast, g.length = 3
  | [], g, hg => absurd hg (by simp [chunk3])
  | [a], g, hg => absurd hg (by simp [chunk3])
  | [a, b], g, hg => absurd hg (by simp [chunk3])
  | a :: b :: c :: rest, g, hg => by
    by_cases hr : rest = []
    · subst hr
      exact absurd hg (by simp [chunk3])
    · have hcne : chunk3 rest ≠ [] := chunk3_ne_nil rest hr
      obtain ⟨x, xs, hx⟩ : ∃ x xs, chunk3 rest = x :: xs := by
        cases hc : chunk3 rest with
        | nil => exact absurd hc hcne
        | cons x xs => exact ⟨x, xs, rfl⟩
      rw [show chunk3 (a :: b :: c :: rest) = [a, b, c] :: chunk3 rest from rfl,
        hx, List.dropLast_cons₂] at hg
      rcases List.mem_cons.mp hg with rfl | hg
      · rfl
      · exact chunk3_dropLast_sizes rest g (by rw [hx]; exact hg)

/-- Members of three-chunks come from the list. -/
theorem chunk3_mem {α : Type} :
    ∀ l : List α, ∀ g ∈ chunk3 l, ∀ c ∈ g, c ∈ l
  | [], g, hg, c, hc => absurd hg (by simp [chunk3])
  | [a], g, hg, c, hc => by
    simp only [chunk3, List.mem_singleton] at hg
    subst hg
    simpa using hc
  | [a, b], g, hg, c, hc => by
    simp only [chunk3, List.mem_singleton] at hg
    subst hg
    simpa using hc
  | a :: b :: d :: rest, g, hg, c, hc => by
    simp only [chunk3, List.mem_cons] at hg
    rcases hg with rfl | hg
    · rcases (by simpa using hc : c = a ∨ c = b ∨ c = d) with rfl | rfl | rfl <;> simp
    · have hmem := chunk3_mem rest g hg c hc
      simp [hmem]

/-- Splitting a comma-free list at commas gives back the singleton. -/
theorem splitCh_comma_free :
    ∀ l : List Char, ',' ∉ l → splitCh ',' l = [l]
  | [], _ => rfl
  | c :: rest, h => by
    have hc : ¬(c = ',') := fun hc => h (hc ▸ List.mem_cons_self c rest)
    have hr : ',' ∉ rest := fun hr => h (List.mem_cons_of_mem c hr)
    simp only [splitCh, if_neg hc, splitCh_comma_free rest hr]

/-- Splitting after a comma-free prefix peels that prefix off. -/
theorem splitCh_peel :
    ∀ (g rest : List Char), ',' ∉ g →
      splitCh ',' (g ++ ',' :: rest) = g :: splitCh ',' rest
  | [], rest, _ => by simp [splitCh]
  | c :: g, rest, h => by
    have hc : ¬(c = ',') := fun hc => h (hc ▸ List.mem_cons_self c g)
    have hg : ',' ∉ g := fun hg => h (List.mem_cons_of_mem c hg)
    have ih := splitCh_peel g rest hg
    simp only [List.cons_append, splitCh, if_neg hc, List.append_eq, ih]

/-- Splitting with `splitComma` inverts `joinComma` on comma-free groups. -/
theorem splitComma_joinComma :
    ∀ gs : List (List Char), gs ≠ [] → (∀ g ∈ gs, ',' ∉ g) →
      splitComma (joinComma gs) = gs
  | [], h, _ => absurd rfl h
  | [g], _, hfree => by
    simp only [joinComma, splitComma]
    exact splitCh_comma_free g (hfree g (by simp))
  | g :: h :: t, _, hfree => by
    have hg : ',' ∉ g := hfree g (by simp)
    have hrest : ∀ x ∈ h :: t, ',' ∉ x := fun x hx =>
      hfree x (List.mem_cons_of_mem g hx)
    simp only [joinComma, splitComma, splitCh_peel g _ hg]
    have ih := splitComma_joinComma (h :: t) (by simp) hrest
    simp only [splitComma] at ih
    rw [ih]

/-- Removing the commas from a comma-joined list recovers the
concatenation of the groups. -/
theorem filter_joinComma :
    ∀ gs : List (List Char), (∀ g ∈ gs, ',' ∉ g) →
      (joinComma gs).filter (fun c => c != ',') = gs.flatten
  | [], _ => rfl
  | [g], hfree => by
    simp only [joinComma, List.flatten_cons, List.flatten_nil, List.append_nil]
    refine List.filter_eq_self.mpr ?_
    intro a ha
    have : a ≠ ',' := fun h => (hfree g (by simp)) (h ▸ ha)
    simpa using this
  | g :: h :: t, hfree => by
    have hg : ',' ∉ g := hfree g (by simp)
    have hrest : ∀ x ∈ h :: t, ',' ∉ x := fun x hx =>
      hfree x (List.mem_cons_of_mem g hx)
    have ih := filter_joinComma (h :: t) hrest
    simp only [joinComma, List.filter_append, List.filter_cons] at ih ⊢
    have : ((',' : Char) != ',') = false := by decide
    rw [this]
    simp only [ih, List.flatten_cons, List.append_assoc]
    congr 1
    refine List.filter_eq_self.mpr ?_
    intro a ha
    have : a ≠ ',' := fun hh => hg (hh ▸ ha)
    simpa using this

/-- Flattening interacts with reversing the group list and each group. -/
theorem flatten_rev_map_rev {α : Type} :
    ∀ gs : List (List α),
      ((gs.map List.reverse).reverse).flatten = gs.flatten.reverse
  | [] => rfl
  | g :: gs => by
    simp only [List.map_cons, List.reverse_cons, List.flatten_append,
      List.flatten_cons, flatten_rev_map_rev gs, List.reverse_append,
      List.flatten_nil, List.append_nil]

/-- The tail of a reversed list is the reversed `dropLast`. -/
theorem tail_reverse_eq {α : Type} (l : List α) :
    l.reverse.tail = l.dropLast.reverse := by
  rcases eq_or_ne l [] with rfl | hne
  · rfl
  · conv_lhs => rw [← List.dropLast_append_getLast hne]
    simp

/-- Dropping the last element commutes with `map`. -/
theorem dropLast_map_comm {α β : Type} (f : α → β) :
    ∀ l : List α, (l.map f).dropLast = l.dropLast.map f
  | [] => rfl
  | [a] => rfl
  | a :: b :: t => by
    simp only [List.map_cons, List.dropLast_cons₂, ← dropLast_map_comm f (b :: t)]

/-- Flattening the thousands groups recovers the digit string. -/
theorem flatten_thousandsGroups (l : List Char) :
    (thousandsGroups l).flatten = l := by
  simp only [thousandsGroups, flatten_rev_map_rev, chunk3_flatten,
    List.reverse_reverse]

/-- Members of the thousands groups are characters of the digit string. -/
theorem thousandsGroups_mem (l : List Char) :
    ∀ g ∈ thousandsGroups l, ∀ c ∈ g, c ∈ l := by
  intro g hg c hc
  simp only [thousandsGroups, List.mem_reverse, List.mem_map] at hg
  obtain ⟨g', hg', rfl⟩ := hg
  rw [List.mem_reverse] at hc
  have := chunk3_mem l.reverse g' hg' c hc
  simpa using this

/-- Thousands groups of a non-empty list are non-empty. -/
theorem thousandsGroups_ne_nil (l : List Char) (h : l ≠ []) :
    thousandsGroups l ≠ [] := by
  simp only [thousandsGroups]
  have : chunk3 l.reverse ≠ [] := chunk3_ne_nil l.reverse (by simpa using h)
  simp [this]

/-- The thousands groups have the grouping shape: the leading group has
one to three characters and every later group exactly three. -/
theorem sizesOk_thousandsGroups (l : List Char) (h : l ≠ []) :
    sizesOk (thousandsGroups l) = true := by
  obtain ⟨g, gs, hgs⟩ : ∃ g gs, thousandsGroups l = g :: gs := by
    cases hc : thousandsGroups l with
    | nil => exact absurd hc (thousandsGroups_ne_nil l h)
    | cons g gs => exact ⟨g, gs, rfl⟩
  have hghead : g ∈ thousandsGroups l := by rw [hgs]; simp
  have hgsz : 1 ≤ g.length ∧ g.length ≤ 3 := by
    simp only [thousandsGroups, List.mem_reverse, List.mem_map] at hghead
    obtain ⟨g', hg', rfl⟩ := hghead
    simpa using chunk3_sizes l.reverse g' hg'
  have htail : ∀ x ∈ gs, x.length = 3 := by
    intro x hx
    have hx2 : x ∈ (thousandsGroups l).tail := by rw [hgs]; simpa using hx
    simp only [thousandsGroups, tail_reverse_eq, List.mem_reverse,
      dropLast_map_comm, List.mem_map] at hx2
    obtain ⟨x', hx', rfl⟩ := hx2
    simpa using chunk3_dropLast_sizes l.reverse x' hx'
  rw [hgs]
  simp only [sizesOk, Bool.and_eq_true, List.all_eq_true]
  refine ⟨⟨?_, by simpa using hgsz.2⟩, ?_⟩
  · cases g with
    | nil => exact absurd hgsz.1 (by simp)
    | cons a t => rfl
  · intro x hx
    simpa using htail x hx

/-- The rendered characters of a non-negative amount: a dollar sign
followed by the comma-grouped digits. -/
theorem format_currency_nat_data (n : Nat) :
    (format_currency (.vint (n : Int))).data =
      '$' :: commaSep (natDigits n) := by
  have hneg : ¬((n : Int) < 0) := by omega
  simp only [format_currency, if_neg hneg, Int.natAbs_ofNat,
    String.data_append]
  rfl

/-- The thousands groups of a digit expansion contain no comma. -/
theorem thousandsGroups_digits_comma_free (n : Nat) :
    ∀ g ∈ thousandsGroups (natDigits n), ',' ∉ g := by
  intro g hg hmem
  exact digit_ne_comma
    (natDigits_all_digit n ',' (thousandsGroups_mem (natDigits n) g hg ',' hmem))
    rfl

/-- C9: `format_currency` renders `None` and non-numeric amounts as
`"N/A"`; it renders `1234567` as `"$1,234,567"`; and for every natural
amount the output is a dollar sign followed by the decimal digits of the
amount with commas inserted in the thousands-grouping shape — deleting the
commas leaves exactly the digit expansion, which denotes the amount, and
splitting at the commas gives a leading group of one to three digits
followed by groups of exactly three. -/
theorem C9_format_currency :
    format_currency .vnone = "N/A" ∧
    (∀ s, format_currency (.vstr s) = "N/A") ∧
    format_currency (.vint 1234567) = "$1,234,567" ∧
    (∀ n : Nat,
      ((format_currency (.vint (n : Int))).data.filter (fun c => c != ',')) =
        '$' :: natDigits n ∧
      readNatC (natDigits n) = n ∧
      sizesOk (splitComma ((format_currency (.vint (n : Int))).data.drop 1)) =
        true) := by
  refine ⟨rfl, fun s => rfl, by rfl, fun n => ⟨?_, readNatC_natDigits n, ?_⟩⟩
  · rw [format_currency_nat_data n]
    have hd : (('$' : Char) != ',') = true := by decide
    simp only [List.filter_cons, hd, if_true, commaSep]
    rw [filter_joinComma (thousandsGroups (natDigits n))
      (thousandsGroups_digits_comma_free n)]
    rw [flatten_thousandsGroups]
  · rw [format_currency_nat_data n]
    simp only [List.drop_succ_cons, List.drop_zero, commaSep, splitComma]
    have hsplit := splitComma_joinComma (thousandsGroups (natDigits n))
      (thousandsGroups_ne_nil (natDigits n) (natDigits_ne_nil n))
      (thousandsGroups_digits_comma_free n)
    simp only [splitComma] at hsplit
    rw [hsplit]
    exact sizesOk_thousandsGroups (natDigits n) (natDigits_ne_nil n)

/-- Membership in the deduplicated output: a pair appears exactly when it
appears in the input and was not already seen. -/
theorem dedupSeen_mem :
    ∀ (l seen : List (String × String)) (a : String × String),
      a ∈ dedupSeen seen l ↔ a ∈ l ∧ a ∉ seen
  | [], seen, a => by simp [dedupSeen]
  | x :: xs, seen, a => by
    by_cases hx : x ∈ seen
    · simp only [dedupSeen, if_pos hx, dedupSeen_mem xs seen a, List.mem_cons]
      constructor
      · rintro ⟨ha, hs⟩
        exact ⟨Or.inr ha, hs⟩
      · rintro ⟨(rfl | ha), hs⟩
        · exact absurd hx hs
        · exact ⟨ha, hs⟩
    · simp only [dedupSeen, if_neg hx, List.mem_cons,
        dedupSeen_mem xs (x :: seen) a]
      by_cases hax : a = x
      · subst hax
        simp [hx]
      · simp [hax]

/-- The deduplicated output is a subsequence of the input. -/
theorem dedupSeen_sublist :
    ∀ (l seen : List (String × String)), (dedupSeen seen l).Sublist l
  | [], _ => List.Sublist.refl []
  | x :: xs, seen => by
    by_cases hx : x ∈ seen
    · simp only [dedupSeen, if_pos hx]
      exact (dedupSeen_sublist xs seen).cons x
    · simp only [dedupSeen, if_neg hx]
      exact (dedupSeen_sublist xs (x :: seen)).cons₂ x

/-- The deduplicated output has no duplicates. -/
theorem dedupSeen_nodup :
    ∀ (l seen : List (String × String)), (dedupSeen seen l).Nodup
  | [], _ => List.nodup_nil
  | x :: xs, seen => by
    by_cases hx : x ∈ seen
    · simp only [dedupSeen, if_pos hx]
      exact dedupSeen_nodup xs seen
    · simp only [dedupSeen, if_neg hx]
      refine List.Nodup.cons ?_ (dedupSeen_nodup xs (x :: seen))
      intro hmem
      exact ((dedupSeen_mem xs (x :: seen) x).mp hmem).2 (by simp)

/-- Index of the first occurrence of a pair in a list (length when
absent). -/
def firstIdx (a : String × String) : List (String × String) → Nat
  | [] => 0
  | x :: xs => if x = a then 0 else firstIdx a xs + 1

/-- The index `firstIdx` at a head occurrence. -/
theorem firstIdx_cons_self (a : String × String) (l : List (String × String)) :
    firstIdx a (a :: l) = 0 := by
  simp [firstIdx]

/-- The index `firstIdx` past a non-matching head. -/
theorem firstIdx_cons_ne {x a : String × String} (l : List (String × String))
    (h : x ≠ a) : firstIdx a (x :: l) = firstIdx a l + 1 := by
  simp [firstIdx, h]

/-- Relative order in the deduplicated output matches the relative order
of first occurrences in the input. -/
theorem dedupSeen_firstIdx :
    ∀ (l seen : List (String × String)) (a b : String × String),
      a ∈ dedupSeen seen l → b ∈ dedupSeen seen l →
      (firstIdx a (dedupSeen seen l) < firstIdx b (dedupSeen seen l) ↔
        firstIdx a l < firstIdx b l)
  | [], seen, a, b, ha, hb => by simp [dedupSeen] at ha
  | x :: xs, seen, a, b, ha, hb => by
    by_cases hx : x ∈ seen
    · have hne : ∀ c ∈ dedupSeen seen xs, c ≠ x := by
        intro c hc hcx
        exact ((dedupSeen_mem xs seen c).mp hc).2 (hcx ▸ hx)
      simp only [dedupSeen, if_pos hx] at ha hb ⊢
      have hax : x ≠ a := fun h => (hne a ha) h.symm
      have hbx : x ≠ b := fun h => (hne b hb) h.symm
      rw [firstIdx_cons_ne xs hax, firstIdx_cons_ne xs hbx]
      simpa [Nat.succ_lt_succ_iff] using dedupSeen_firstIdx xs seen a b ha hb
    · simp only [dedupSeen, if_neg hx] at ha hb ⊢
      rcases List.mem_cons.mp ha with rfl | ha'
      · rcases List.mem_cons.mp hb with rfl | hb'
        · simp
        · have hba : b ≠ a := by
            intro h
            exact ((dedupSeen_mem xs (a :: seen) b).mp hb').2 (by simp [h])
          rw [firstIdx_cons_self, firstIdx_cons_self,
            firstIdx_cons_ne _ hba.symm, firstIdx_cons_ne _ hba.symm]
          simp
      · have hax : a ≠ x := by
          intro h
          exact ((dedupSeen_mem xs (x :: seen) a).mp ha').2 (by simp [h])
        rcases List.mem_cons.mp hb with rfl | hb'
        · rw [firstIdx_cons_self, firstIdx_cons_self,
            firstIdx_cons_ne _ (fun h => hax h.symm),
            firstIdx_cons_ne _ (fun h => hax h.symm)]
          simp
        · have hbx : b ≠ x := by
            intro h
            exact ((dedupSeen_mem xs (x :: seen) b).mp hb').2 (by simp [h])
          rw [firstIdx_cons_ne _ (fun h => hax h.symm),
            firstIdx_cons_ne _ (fun h => hax h.symm),
            firstIdx_cons_ne _ (fun h => hbx h.symm),
            firstIdx_cons_ne _ (fun h => hbx h.symm)]
          simpa [Nat.succ_lt_succ_iff] using
            dedupSeen_firstIdx xs (x :: seen) a b ha' hb'

/-- C5: for every input sequence of pairs, the deduplicator's output has
no two equal pairs, is a subsequence of the input, contains exactly the
pairs of the input, and lists them in the order of their first
occurrences. -/
theorem C5_dedup_invariant (l : List (String × String)) :
    (unique_name_list l).Nodup ∧
    (unique_name_list l).Sublist l ∧
    (∀ a, a ∈ unique_name_list l ↔ a ∈ l) ∧
    (∀ a b, a ∈ unique_name_list l → b ∈ unique_name_list l →
      (firstIdx a (unique_name_list l) < firstIdx b (unique_name_list l) ↔
        firstIdx a l < firstIdx b l)) := by
  refine ⟨dedupSeen_nodup l [], dedupSeen_sublist l [], ?_, ?_⟩
  · intro a
    rw [unique_name_list, dedupSeen_mem l [] a]
    simp
  · intro a b ha hb
    exact dedupSeen_firstIdx l [] a b ha hb

/-- C5 witness: the deduplicator on a concrete list with a repeat. -/
theorem C5_witness :
    ("Carroll", "Dana") ∈ unique_name_list
        [("Carroll", "Dana"), ("Conelea", "Christine"), ("Carroll", "Dana")] ∧
    firstIdx ("Carroll", "Dana")
        (unique_name_list
          [("Carroll", "Dana"), ("Conelea", "Christine"), ("Carroll", "Dana")]) <
      firstIdx ("Conelea", "Christine")
        (unique_name_list
          [("Carroll", "Dana"), ("Conelea", "Christine"), ("Carroll", "Dana")]) := by
  have h := C5_dedup_invariant
    [("Carroll", "Dana"), ("Conelea", "Christine"), ("Carroll", "Dana")]
  refine ⟨(h.2.2.1 ("Carroll", "Dana")).mpr (by decide), ?_⟩
  refine (h.2.2.2 ("Carroll", "Dana") ("Conelea", "Christine")
    ((h.2.2.1 _).mpr (by decide)) ((h.2.2.1 _).mpr (by decide))).mpr (by decide)

/-- C6: on the concrete blob, the tokenizer produces the two `Carroll`
pairs and the `Conelea` pair in order, and the deduplicator removes the
repeated `Carroll` pair. -/
theorem C6_boundary_case :
    tokenizeNames "Carroll, DanaCarroll, DanaConelea, Christine" =
      [("Carroll", "Dana"), ("Carroll", "Dana"), ("Conelea", "Christine")] ∧
    unique_name_list
        [("Carroll", "Dana"), ("Carroll", "Dana"), ("Conelea", "Christine")] =
      [("Carroll", "Dana"), ("Conelea", "Christine")] := by
  constructor
  · rfl
  · rfl

/-- A well-formed last name on the character level: a capitalized word of
length at least two whose tail stays in `[a-z’\-]`, so that the
lookahead recognizes it as the start of the next segment. -/
def wfLast (l : List Char) : Bool :=
  match l with
  | [] => false
  | c :: rest => isUpperA c && !rest.isEmpty && rest.all isLowerName

/-- A well-formed first name on the character level: capitalized, within
the group-2 class `[A-Za-z.\- ]`, and without a trailing space (so
stripping is the identity). -/
def wfFirst (l : List Char) : Bool :=
  match l with
  | [] => false
  | c :: rest =>
    isUpperA c && (c :: rest).all isName2 &&
      ((c :: rest).getLast? != some ' ')

/-- Well-formedness of a character-level pair. -/
def wfPairC (p : List Char × List Char) : Bool :=
  wfLast p.1 && wfFirst p.2

/-- Well-formedness of a string pair. -/
def wfPairS (p : String × String) : Bool :=
  wfPairC (p.1.data, p.2.data)

/-- An uppercase letter is in the group-1 class. -/
theorem isName1_of_upper {c : Char} (h : isUpperA c = true) :
    isName1 c = true := by
  simp only [isUpperA, Bool.and_eq_true] at h
  simp [isName1, h.1, h.2]

/-- A lookahead-class character is in the group-1 class. -/
theorem isName1_of_lowerName {c : Char} (h : isLowerName c = true) :
    isName1 c = true := by
  simp only [isLowerName, Bool.or_eq_true] at h
  simp only [isName1, Bool.or_eq_true]
  tauto

/-- An uppercase letter is not in the lookahead class `[a-z’\-]`. -/
theorem not_lowerName_of_upper {c : Char} (h : isUpperA c = true) :
    isLowerName c = false := by
  simp only [isUpperA, Bool.and_eq_true, decide_eq_true_eq] at h
  cases hl : isLowerName c
  · rfl
  · exfalso
    simp only [isLowerName, Bool.or_eq_true, Bool.and_eq_true,
      decide_eq_true_eq, beq_iff_eq] at hl
    rcases hl with (⟨h1, _⟩ | rfl) | rfl
    · exact absurd (le_trans h1 h.2) (by decide)
    · exact absurd h.2 (by decide)
    · exact absurd h.1 (by decide)

/-- An uppercase letter is not whitespace. -/
theorem not_ws_of_upper {c : Char} (h : isUpperA c = true) :
    isWsChar c = false := by
  cases hw : isWsChar c
  · rfl
  · exfalso
    simp only [isWsChar, Bool.or_eq_true, beq_iff_eq] at hw
    rcases hw with ((((rfl | rfl) | rfl) | rfl) | rfl) | rfl <;>
      exact absurd h (by decide)

/-- A lookahead-class character is not whitespace. -/
theorem not_ws_of_lowerName {c : Char} (h : isLowerName c = true) :
    isWsChar c = false := by
  cases hw : isWsChar c
  · rfl
  · exfalso
    simp only [isWsChar, Bool.or_eq_true, beq_iff_eq] at hw
    rcases hw with ((((rfl | rfl) | rfl) | rfl) | rfl) | rfl <;>
      exact absurd h (by decide)

/-- A group-2 character other than the space is not whitespace. -/
theorem not_ws_of_name2 {c : Char} (h : isName2 c = true) (hs : c ≠ ' ') :
    isWsChar c = false := by
  cases hw : isWsChar c
  · rfl
  · exfalso
    simp only [isWsChar, Bool.or_eq_true, beq_iff_eq] at hw
    rcases hw with ((((rfl | rfl) | rfl) | rfl) | rfl) | rfl
    · exact hs rfl
    all_goals exact absurd h (by decide)

/-- A group-2 character is not a comma. -/
theorem ne_comma_of_name2 {c : Char} (h : isName2 c = true) : c ≠ ',' := by
  intro heq
  subst heq
  exact absurd h (by decide)

/-- An uppercase letter is not a comma. -/
theorem ne_comma_of_upper {c : Char} (h : isUpperA c = true) : c ≠ ',' := by
  intro heq
  subst heq
  exact absurd h (by decide)

/-- Unpacks a well-formed last name. -/
theorem wfLast_elim {L : List Char} (h : wfLast L = true) :
    ∃ c lt, L = c :: lt ∧ isUpperA c = true ∧ lt ≠ [] ∧
      lt.all isLowerName = true := by
  cases L with
  | nil => exact absurd h (by simp [wfLast])
  | cons c lt =>
    simp only [wfLast, Bool.and_eq_true, Bool.not_eq_true',
      List.isEmpty_eq_false] at h
    exact ⟨c, lt, rfl, h.1.1, h.1.2, h.2⟩

/-- Unpacks a well-formed first name. -/
theorem wfFirst_elim {F : List Char} (h : wfFirst F = true) :
    ∃ c fr, F = c :: fr ∧ isUpperA c = true ∧ F.all isName2 = true ∧
      F.getLast? ≠ some ' ' := by
  cases F with
  | nil => exact absurd h (by simp [wfFirst])
  | cons c fr =>
    simp only [wfFirst, Bool.and_eq_true, bne_iff_ne, ne_eq] at h
    exact ⟨c, fr, rfl, h.1.1, h.1.2, h.2⟩

/-- The head of a well-formed joined blob, when present, is uppercase. -/
theorem joinPairsC_head_upper (P : List (List Char × List Char))
    (hP : P.all wfPairC = true) :
    ∀ c', (joinPairsC P).head? = some c' → isUpperA c' = true := by
  cases P with
  | nil => intro c' hc'; exact absurd hc' (by simp [joinPairsC])
  | cons p rest =>
    intro c' hc'
    simp only [List.all_cons, Bool.and_eq_true, wfPairC] at hP
    obtain ⟨c, lt, hL, hcup, _, _⟩ := wfLast_elim hP.1.1
    simp only [joinPairsC, hL, List.cons_append, List.head?_cons,
      Option.some.injEq] at hc'
    exact hc' ▸ hcup

/-- The lookahead holds at the start of a well-formed joined blob: either
the input is exhausted, or an uppercase letter begins a last name whose
tail is a non-empty `[a-z’\-]` run followed by `','`. -/
theorem lookNext_joinPairsC (P : List (List Char × List Char))
    (hP : P.all wfPairC = true) :
    lookNext (joinPairsC P) = true := by
  cases P with
  | nil => rfl
  | cons p rest =>
    simp only [List.all_cons, Bool.and_eq_true, wfPairC] at hP
    obtain ⟨c, lt, hL, hcup, hltne, hltall⟩ := wfLast_elim hP.1.1
    have hlt : ∀ a ∈ lt, isLowerName a = true := List.all_eq_true.mp hltall
    simp only [joinPairsC, hL, List.cons_append, lookNext, List.append_assoc,
      List.takeWhile_append_of_pos hlt, List.dropWhile_append_of_pos hlt,
      List.takeWhile_cons_of_neg (show ¬(isLowerName ',' = true) by decide),
      List.dropWhile_cons_of_neg (show ¬(isLowerName ',' = true) by decide)]
    simp [hcup, hltne]

/-- Scanning group-2 characters, the first character after the dropped
`[a-z’\-]` run is never a comma (it is a non-comma group-2 character, the
uppercase head of the next last name, or the end of input). -/
theorem dropWhile_head_ne_comma (J : List Char)
    (hJ : ∀ c', J.head? = some c' → isUpperA c' = true) :
    ∀ t : List Char, t.all isName2 = true →
      ((t ++ J).dropWhile isLowerName).head? ≠ some ','
  | [], _ => by
    cases J with
    | nil => simp
    | cons c' rest =>
      have hc' := hJ c' rfl
      rw [List.nil_append,
        List.dropWhile_cons_of_neg (by simp [not_lowerName_of_upper hc'])]
      simp only [List.head?_cons, ne_eq, Option.some.injEq]
      exact ne_comma_of_upper hc'
  | b :: t', ht => by
    simp only [List.all_cons, Bool.and_eq_true] at ht
    by_cases hlb : isLowerName b = true
    · rw [List.cons_append, List.dropWhile_cons_of_pos hlb]
      exact dropWhile_head_ne_comma J hJ t' ht.2
    · rw [List.cons_append, List.dropWhile_cons_of_neg hlb]
      simp only [List.head?_cons, ne_eq, Option.some.injEq]
      exact ne_comma_of_name2 ht.1

/-- The lookahead never fires strictly inside a group-2 run that is
followed by a well-formed continuation. -/
theorem lookNext_name2_false (J : List Char)
    (hJ : ∀ c', J.head? = some c' → isUpperA c' = true) :
    ∀ t : List Char, t ≠ [] → t.all isName2 = true →
      lookNext (t ++ J) = false
  | [], h, _ => absurd rfl h
  | c :: t', _, ht => by
    simp only [List.all_cons, Bool.and_eq_true] at ht
    simp only [List.cons_append, lookNext]
    have hne := dropWhile_head_ne_comma J hJ t' ht.2
    have hb : (((t' ++ J).dropWhile isLowerName).head? == some ',') = false :=
      beq_eq_false_iff_ne.mpr hne
    rw [hb, Bool.and_false]

/-- One unfolding step of the lazy group-2 search. -/
theorem searchEnd_cons (acc : List Char) (c : Char) (rest : List Char) :
    searchEnd acc (c :: rest) =
      if isName2 c then
        if lookNext rest then some (acc ++ [c], rest)
        else searchEnd (acc ++ [c]) rest
      else none := rfl

/-- The lazy group-2 search consumes exactly a well-formed first name and
stops at the following boundary. -/
theorem searchEnd_through (J : List Char) (hJ : lookNext J = true)
    (hJup : ∀ c', J.head? = some c' → isUpperA c' = true) :
    ∀ (F acc : List Char), F ≠ [] → F.all isName2 = true →
      searchEnd acc (F ++ J) = some (acc ++ F, J)
  | [], _, h, _ => absurd rfl h
  | [c], acc, _, hF => by
    simp only [List.all_cons, List.all_nil, Bool.and_true] at hF
    rw [List.cons_append, List.nil_append, searchEnd_cons, if_pos hF,
      if_pos hJ]
  | c :: d :: F', acc, _, hF => by
    simp only [List.all_cons, Bool.and_eq_true] at hF
    have hfalse : lookNext ((d :: F') ++ J) = false :=
      lookNext_name2_false J hJup (d :: F') (by simp)
        (by simp [List.all_cons, hF.2.1, hF.2.2])
    have hrec := searchEnd_through J hJ hJup (d :: F') (acc ++ [c])
      (by simp) (by simp [List.all_cons, hF.2.1, hF.2.2])
    rw [List.cons_append, searchEnd_cons, if_pos hF.1,
      if_neg (ne_true_of_eq_false hfalse), hrec]
    simp

/-- One anchored match at a well-formed segment boundary: group 1 captures
exactly the last name, the single joining space is consumed by `\s*`,
group 2 captures exactly the first name, and the match ends at the start
of the next segment. -/
theorem run1_segment (L F : List Char) (P : List (List Char × List Char))
    (hL : wfLast L = true) (hF : wfFirst F = true)
    (hP : P.all wfPairC = true) :
    run1 (joinPairsC ((L, F) :: P)) = some ((L, F), joinPairsC P) := by
  obtain ⟨c, lt, rfl, hcup, hltne, hltall⟩ := wfLast_elim hL
  obtain ⟨fc, fr, hFeq, hfup, hfall, _⟩ := wfFirst_elim hF
  have hLall : ∀ a ∈ c :: lt, isName1 a = true := by
    intro a ha
    rcases List.mem_cons.mp ha with rfl | ha
    · exact isName1_of_upper hcup
    · exact isName1_of_lowerName (List.all_eq_true.mp hltall a ha)
  have hJ := lookNext_joinPairsC P hP
  have hJup := joinPairsC_head_upper P hP
  have hsearch := searchEnd_through (joinPairsC P) hJ hJup F []
    (by rw [hFeq]; simp) hfall
  show run1 ((c :: lt) ++ ',' :: ' ' :: (F ++ joinPairsC P)) =
    some ((c :: lt, F), joinPairsC P)
  have htake : ((c :: lt) ++ ',' :: ' ' :: (F ++ joinPairsC P)).takeWhile
      isName1 = c :: lt := by
    rw [List.takeWhile_append_of_pos hLall,
      List.takeWhile_cons_of_neg (show ¬(isName1 ',' = true) by decide),
      List.append_nil]
  have hdrop : ((c :: lt) ++ ',' :: ' ' :: (F ++ joinPairsC P)).dropWhile
      isName1 = ',' :: ' ' :: (F ++ joinPairsC P) := by
    rw [List.dropWhile_append_of_pos hLall,
      List.dropWhile_cons_of_neg (show ¬(isName1 ',' = true) by decide)]
  have hwtake : (' ' :: (F ++ joinPairsC P)).takeWhile isWsChar = [' '] := by
    rw [List.takeWhile_cons_of_pos (show isWsChar ' ' = true by decide),
      hFeq, List.cons_append,
      List.takeWhile_cons_of_neg (by simp [not_ws_of_upper hfup])]
  have hwdrop : (' ' :: (F ++ joinPairsC P)).dropWhile isWsChar =
      F ++ joinPairsC P := by
    rw [List.dropWhile_cons_of_pos (show isWsChar ' ' = true by decide),
      hFeq, List.cons_append,
      List.dropWhile_cons_of_neg (by simp [not_ws_of_upper hfup]),
      ← List.cons_append]
  simp only [run1, htake, hdrop, hwtake, hwdrop]
  simp only [List.isEmpty_cons, Bool.false_eq_true, if_false,
    List.reverse_singleton, tryWs, hsearch, List.nil_append]

/-- The scan yields nothing on empty input. -/
theorem findAllF_nil : ∀ fuel : Nat, findAllF fuel [] = []
  | 0 => rfl
  | _ + 1 => rfl

/-- The scan of a well-formed joined blob recovers exactly the pairs, one
match per segment, provided the fuel covers the input. -/
theorem findAllF_joinPairsC :
    ∀ (P : List (List Char × List Char)) (fuel : Nat),
      P.all wfPairC = true → (joinPairsC P).length ≤ fuel →
      findAllF fuel (joinPairsC P) = P
  | [], fuel, _, _ => findAllF_nil fuel
  | (L, F) :: rest, fuel, hP, hlen => by
    simp only [List.all_cons, Bool.and_eq_true, wfPairC] at hP
    have hrun := run1_segment L F rest hP.1.1 hP.1.2 hP.2
    have hLne : L ≠ [] := by
      obtain ⟨c, lt, rfl, -, -, -⟩ := wfLast_elim hP.1.1
      simp
    have hFne : F ≠ [] := by
      obtain ⟨c, fr, rfl, -, -, -⟩ := wfFirst_elim hP.1.2
      simp
    have hlen2 : (joinPairsC ((L, F) :: rest)).length =
        L.length + 2 + F.length + (joinPairsC rest).length := by
      simp only [joinPairsC, List.length_append, List.length_cons]
      omega
    obtain ⟨f, rfl⟩ : ∃ f, fuel = f + 1 := by
      refine ⟨fuel - 1, ?_⟩
      have hL1 : 1 ≤ L.length := List.length_pos.mpr hLne
      omega
    have hrest : (joinPairsC rest).length ≤ f := by
      have hL1 : 1 ≤ L.length := List.length_pos.mpr hLne
      have hF1 : 1 ≤ F.length := List.length_pos.mpr hFne
      omega
    show (match run1 (joinPairsC ((L, F) :: rest)) with
      | some (g, rem) => g :: findAllF f rem
      | none =>
        match joinPairsC ((L, F) :: rest) with
        | [] => []
        | _ :: t => findAllF f t) = (L, F) :: rest
    rw [hrun]
    show (L, F) :: findAllF f (joinPairsC rest) = (L, F) :: rest
    rw [findAllF_joinPairsC rest f hP.2 hrest]

/-- Stripping is the identity when neither end is whitespace. -/
theorem stripWs_eq_self {l : List Char}
    (hhead : ∀ c, l.head? = some c → isWsChar c = false)
    (hlast : ∀ c, l.getLast? = some c → isWsChar c = false) :
    stripWs l = l := by
  have h1 : l.dropWhile isWsChar = l := by
    cases l with
    | nil => rfl
    | cons a t => rw [List.dropWhile_cons_of_neg (by simp [hhead a rfl])]
  have h2 : l.reverse.dropWhile isWsChar = l.reverse := by
    cases hr : l.reverse with
    | nil => rfl
    | cons a t =>
      have ha : l.getLast? = some a := by
        rw [← List.head?_reverse, hr]
        rfl
      rw [List.dropWhile_cons_of_neg (by simp [hlast a ha])]
  show ((l.dropWhile isWsChar).reverse.dropWhile isWsChar).reverse = l
  rw [h1, h2, List.reverse_reverse]

/-- Stripping a well-formed last name changes nothing. -/
theorem stripWs_wfLast {L : List Char} (h : wfLast L = true) :
    stripWs L = L := by
  obtain ⟨c, lt, rfl, hcup, hltne, hltall⟩ := wfLast_elim h
  refine stripWs_eq_self ?_ ?_
  · intro a ha
    simp only [List.head?_cons, Option.some.injEq] at ha
    exact ha ▸ not_ws_of_upper hcup
  · intro a ha
    have hmem : a ∈ c :: lt := List.mem_of_mem_getLast? ha
    rcases List.mem_cons.mp hmem with rfl | hmem
    · exact not_ws_of_upper hcup
    · exact not_ws_of_lowerName (List.all_eq_true.mp hltall a hmem)

/-- Stripping a well-formed first name changes nothing. -/
theorem stripWs_wfFirst {F : List Char} (h : wfFirst F = true) :
    stripWs F = F := by
  obtain ⟨c, fr, rfl, hcup, hfall, hflast⟩ := wfFirst_elim h
  refine stripWs_eq_self ?_ ?_
  · intro a ha
    simp only [List.head?_cons, Option.some.injEq] at ha
    exact ha ▸ not_ws_of_upper hcup
  · intro a ha
    have hmem : a ∈ c :: fr := List.mem_of_mem_getLast? ha
    have hsp : a ≠ ' ' := by
      intro hsp
      exact hflast (hsp ▸ ha)
    exact not_ws_of_name2 (List.all_eq_true.mp hfall a hmem) hsp

/-- Rebuilding a string from its characters is the identity. -/
theorem mk_data_eq (s : String) : String.mk s.data = s := by
  obtain ⟨l⟩ := s
  rfl

/-- Tokenizing a well-formed joined roster gives back exactly the roster's
pairs. -/
theorem tokenizeNames_joinPairs (P : List (String × String))
    (hwf : P.all wfPairS = true) :
    tokenizeNames (joinPairs P) = P := by
  have hPC : (P.map (fun p => (p.1.data, p.2.data))).all wfPairC = true := by
    rw [List.all_eq_true]
    intro q hq
    rw [List.mem_map] at hq
    obtain ⟨p, hp, rfl⟩ := hq
    exact List.all_eq_true.mp hwf p hp
  have hdata : (joinPairs P).data =
      joinPairsC (P.map (fun p => (p.1.data, p.2.data))) := rfl
  show (findAllMatches (joinPairs P).data).map
      (fun p => (String.mk (stripWs p.1), String.mk (stripWs p.2))) = P
  rw [hdata, findAllMatches,
    findAllF_joinPairsC (P.map (fun p => (p.1.data, p.2.data))) _ hPC
      (Nat.le_refl _),
    List.map_map]
  have hpt : ∀ p ∈ P,
      ((fun q : List Char × List Char =>
          (String.mk (stripWs q.1), String.mk (stripWs q.2))) ∘
        (fun p : String × String => (p.1.data, p.2.data))) p = p := by
    intro p hp
    have hw := List.all_eq_true.mp hwf p hp
    simp only [wfPairS, wfPairC, Bool.and_eq_true] at hw
    simp only [Function.comp_apply]
    rw [stripWs_wfLast hw.1, stripWs_wfFirst hw.2, mk_data_eq, mk_data_eq]
  rw [List.map_congr_left hpt]
  simp

/-- C7: a roster produced by tokenizing a well-formed concatenation of
`"LastName, FirstName"` segments survives the re-join/re-tokenize round
trip: joining the roster back into one blob and tokenizing again yields
the same sequence of pairs. -/
theorem C7_tokenizer_roundtrip (P : List (String × String))
    (hwf : P.all wfPairS = true) :
    tokenizeNames (joinPairs P) = P ∧
    tokenizeNames (joinPairs (tokenizeNames (joinPairs P))) =
      tokenizeNames (joinPairs P) := by
  have hmain := tokenizeNames_joinPairs P hwf
  refine ⟨hmain, ?_⟩
  rw [hmain]
  exact hmain

/-- C7 witness: the round trip on a concrete well-formed roster with
periods, hyphens and an interior space in the first names. -/
theorem C7_witness :
    tokenizeNames (joinPairs (tokenizeNames (joinPairs
        [("Redish", "A. David"), ("Schallmo", "Michael-Paul")]))) =
      tokenizeNames (joinPairs
        [("Redish", "A. David"), ("Schallmo", "Michael-Paul")]) :=
  (C7_tokenizer_roundtrip
    [("Redish", "A. David"), ("Schallmo", "Michael-Paul")] (by decide)).2
